import Mathlib

/-!
Verification of the ctxcache Go library (github.com/alingse/ctxcache).

The library provides request-scoped memoization: a cache store wraps a
loader function func(K) V behind a map guarded by a reader/writer lock
(cacheLoader), and context helpers (WithCache, FromContext,
FromContextLoader) bind such stores into an immutable, hierarchical
context and resolve them again by identifier and type.

The embedding below has two layers.

The first layer is a generic cache store whose loader may have side
effects; effects are modelled by threading an explicit loader state of
type σ (a pure loader is the special case where the state is ignored).
A loader that panics is modelled by an Except-valued loader. This layer
embeds the method cacheLoader of the generic Go struct cache[K, V];
the map field data is an association list with overwrite-on-store
semantics, matching a Go map. The reader/writer lock has no sequential
content; its interleaving semantics under concurrent callers is given
by the step relation stepThread below.

The second layer models the context API. Go stores values of arbitrary
dynamic type in a context and recovers caches by a checked type
assertion, so keys and values of the cached functions live in one
dynamic-value type DynVal, each cache store carries the type tags of
its two Go type parameters, and the type assertion compares tags. The
context is the chain of WithValue frames, innermost first; cache stores
are heap-allocated (the context stores an address), so that mutation of
a store is visible through every handle to it, exactly as with the Go
pointer *cache[K, V].
-/

set_option maxHeartbeats 1000000

universe u v w

/-! ## Definitions: the cache store -/

/-- Read of a Go map, modelled on an association list: the expression
c.data[k] in cacheLoader. Returns the first binding of the key. -/
def mapGet {K : Type v} {V : Type w} [DecidableEq K] : List (K × V) → K → Option V
  | [], _ => none
  | p :: rest, k => if p.1 = k then some p.2 else mapGet rest k

/-- Write of a Go map, modelled on an association list: the statement
c.data[k] = v in cacheLoader. Overwrites an existing binding of the key. -/
def mapSet {K : Type v} {V : Type w} [DecidableEq K] : List (K × V) → K → V → List (K × V)
  | [], k, v => [(k, v)]
  | p :: rest, k, v => if p.1 = k then (k, v) :: rest else p :: mapSet rest k v

/-- The struct cache[K, V] of the library: the map data plus the loader
fixed at construction. The loader may have side effects, modelled by the
explicit state σ. -/
structure Cache (σ : Type u) (K : Type v) (V : Type w) where
  data : List (K × V)
  loader : K → σ → V × σ

/-- The method cacheLoader of cache[K, V]: look the key up under the read
lock; on a hit return the stored value; on a miss take the write lock,
invoke the loader once, store its result under the key and return it.
Sequential (single-caller) semantics of the Go method, loader effects
threaded through σ. -/
def cacheLoader {σ : Type u} {K : Type v} {V : Type w} [DecidableEq K]
    (c : Cache σ K V) (k : K) (s : σ) : V × Cache σ K V × σ :=
  match mapGet c.data k with
  | some v => (v, c, s)
  | none =>
      let vs := c.loader k s
      (vs.1, { c with data := mapSet c.data k vs.1 }, vs.2)

/-- The method cacheLoader with a loader that may panic, modelled as an
Except-valued loader. A panic in the loader propagates out of the Go
method (the deferred unlock still runs) and the map write after the
loader call never executes, so the resulting data is returned alongside
the outcome: on a panic it is the unchanged input map. -/
def cacheLoaderE {K : Type v} {V : Type w} {E : Type u} [DecidableEq K]
    (d : List (K × V)) (loader : K → Except E V) (k : K) :
    Except E V × List (K × V) :=
  match mapGet d k with
  | some v => (Except.ok v, d)
  | none =>
      match loader k with
      | Except.ok v => (Except.ok v, mapSet d k v)
      | Except.error e => (Except.error e, d)

/-! ## Definitions: single-threaded call sequences and the invocation log -/

/-- Wraps a loader so that each invocation appends the key and the
produced value to a log threaded through the loader state; the wrapping
does not change what the underlying loader computes. -/
def logLoader {σ : Type u} {K : Type v} {V : Type w} (f : K → σ → V × σ) :
    K → σ × List (K × V) → V × (σ × List (K × V)) :=
  fun k p =>
    let vs := f k p.1
    (vs.1, (vs.2, p.2 ++ [(k, vs.1)]))

/-- A single-threaded sequence of cacheLoader calls on one store whose
loader L is fixed at construction: returns the list of returned values,
the final map and the final loader state. -/
def runGets {σ : Type u} {K : Type v} {V : Type w} [DecidableEq K]
    (L : K → σ → V × σ) :
    List K → List (K × V) → σ → List V × List (K × V) × σ
  | [], d, s => ([], d, s)
  | k :: ks, d, s =>
      let r := cacheLoader ⟨d, L⟩ k s
      let rest := runGets L ks r.2.1.data r.2.2
      (r.1 :: rest.1, rest.2)

/-- Boolean test selecting the log entries of one key. -/
def keyIs {K : Type v} {V : Type w} [DecidableEq K] (q : K) : K × V → Bool :=
  fun p => decide (p.1 = q)

/-- Invariant tying the store map to the log of loader invocations:
every key is mapped exactly to the value of its first logged invocation,
and a key is logged exactly once when present in the map and never when
absent. -/
def LogInv {K : Type v} {V : Type w} [DecidableEq K]
    (d : List (K × V)) (l : List (K × V)) : Prop :=
  ∀ q : K, mapGet d q = (l.find? (keyIs q)).map Prod.snd ∧
    l.countP (keyIs q) = (if (mapGet d q).isSome then 1 else 0)

/-! ## Definitions: the context-binding layer -/

/-- Type tags standing for the Go type parameters K and V with which a
cache store (and a resolution call site) is instantiated; the checked
type assertion compares these tags. -/
inductive Ty where
  | int
  | str
  | bool
deriving DecidableEq, Repr

/-- Dynamic runtime values: the one domain in which keys and values of
all cached functions live, as Go interface values do. -/
inductive DynVal where
  | intV (n : Int)
  | strV (s : String)
  | boolV (b : Bool)
deriving DecidableEq, Repr

/-- A context key: either a FuncID (a string naming a cached function),
or any other key a third party stored in the context (context.WithValue
accepts arbitrary keys; keys of other types never collide with a
FuncID). -/
inductive GoKey where
  | funcId (id : String)
  | other (tag : Nat)
deriving DecidableEq, Repr

/-- A value stored in a context frame: a pointer to a cache store, or
any other value. -/
inductive CtxEntry where
  | cacheRef (addr : Nat)
  | otherVal (v : DynVal)
deriving DecidableEq, Repr

/-- A heap-allocated cache store as seen through the context: the type
tags of its two Go type parameters, its map, and its loader. Loaders at
this layer are pure; invocations are counted explicitly by the call
semantics callCallable. -/
structure GoCache where
  kt : Ty
  vt : Ty
  data : List (DynVal × DynVal)
  loader : DynVal → DynVal

/-- The heap of allocated cache stores; an address is an index. -/
abbrev Heap := List GoCache

/-- A context is its chain of WithValue frames, innermost first; the
tail of the list is the ancestor chain. -/
abbrev Ctx := List (GoKey × CtxEntry)

/-- ctx.Value(key): walk the chain innermost-out to the first frame
whose key matches. -/
def ctxValue (ctx : Ctx) (key : GoKey) : Option CtxEntry :=
  (ctx.find? (fun e => decide (e.1 = key))).map Prod.snd

/-- The checked type assertion v.(*cache[K, V]) on a looked-up context
value: succeeds exactly on a reference to a live cache store whose type
tags are the asserted ones, yielding the store's address. -/
def assertCache (hp : Heap) (ent : Option CtxEntry) (kt vt : Ty) : Option Nat :=
  match ent with
  | some (CtxEntry.cacheRef a) =>
      match hp[a]? with
      | some c => if c.kt = kt ∧ c.vt = vt then some a else none
      | none => none
  | _ => none

/-- WithCache (src/unnamed/part_003): construct a fresh cache store from
the loader (allocated at the end of the heap, with empty data) and
return a new context extending the input context with a binding of the
identifier to that store. -/
def WithCache (ctx : Ctx) (hp : Heap) (id : String) (kt vt : Ty)
    (f : DynVal → DynVal) : Ctx × Heap :=
  ((GoKey.funcId id, CtxEntry.cacheRef hp.length) :: ctx, hp ++ [⟨kt, vt, [], f⟩])

/-- FromContext (src/unnamed/part_003): look the identifier up in the
context and type assert the result to *cache[K, V]; on success return
the store's cacheLoader (represented by the store address) and true,
otherwise nil (represented by none) and false. -/
def FromContext (hp : Heap) (ctx : Ctx) (id : String) (kt vt : Ty) :
    Option Nat × Bool :=
  match assertCache hp (ctxValue ctx (GoKey.funcId id)) kt vt with
  | some a => (some a, true)
  | none => (none, false)

/-- A callable of Go type CacheFunc[K, V] as returned by the resolution
helpers: either the method value cacheLoader of the store at an address,
or the fallback loader passed through directly. -/
inductive Callable where
  | cached (addr : Nat)
  | direct
deriving DecidableEq, Repr

/-- FromContextLoader (src/unnamed/part_003): the same lookup and type
assertion as FromContext, returning the store's cacheLoader on success
and the supplied loader itself otherwise. -/
def FromContextLoader (hp : Heap) (ctx : Ctx) (id : String) (kt vt : Ty) :
    Callable :=
  match assertCache hp (ctxValue ctx (GoKey.funcId id)) kt vt with
  | some a => Callable.cached a
  | none => Callable.direct

/-- The FromContext variant of src/unnamed/part_005, which takes the
loader f as an argument and returns (f, false) instead of (nil, false)
when the lookup or the type assertion fails. -/
def FromContextF (hp : Heap) (ctx : Ctx) (id : String) (kt vt : Ty) :
    Callable × Bool :=
  match assertCache hp (ctxValue ctx (GoKey.funcId id)) kt vt with
  | some a => (Callable.cached a, true)
  | none => (Callable.direct, false)

/-- One call of a resolved callable, with fallback loader f, on key k:
the returned value, the heap afterwards, and the number of loader
invocations the call performed. A direct callable is f itself: it
invokes f on every call and touches no store. A cached callable runs
cacheLoader on its store: a hit answers from the map without invoking
the store's loader, a miss invokes it once and stores the result. An
address outside the heap cannot be produced by resolution over a
well-formed context; that branch behaves like the direct callable. -/
def callCallable (hp : Heap) (cb : Callable) (f : DynVal → DynVal) (k : DynVal) :
    DynVal × Heap × Nat :=
  match cb with
  | Callable.direct => (f k, hp, 1)
  | Callable.cached a =>
      match hp[a]? with
      | none => (f k, hp, 1)
      | some c =>
          match mapGet c.data k with
          | some v => (v, hp, 0)
          | none =>
              let v := c.loader k
              (v, hp.set a { c with data := mapSet c.data k v }, 1)

/-- Two sequential calls of the same callable with the same key: both
values, the final heap, and the total number of loader invocations. -/
def callTwice (hp : Heap) (cb : Callable) (f : DynVal → DynVal) (k : DynVal) :
    DynVal × DynVal × Heap × Nat :=
  let r1 := callCallable hp cb f k
  let r2 := callCallable r1.2.1 cb f k
  (r1.1, r2.1, r2.2.1, r1.2.2 + r2.2.2)

/-- Well-formedness of a context against a heap: every stored cache
reference points into the heap. Automatic in Go, where a context holds
live pointers; needed here because addresses model pointers. -/
def CtxWF (hp : Heap) (ctx : Ctx) : Prop :=
  ∀ p ∈ ctx, ∀ a : Nat, p.2 = CtxEntry.cacheRef a → a < hp.length

/-- The claim-side resolution condition of C3: some frame of the chain
binds the identifier to a store reference, no frame nearer the leaf
binds the identifier at all, and the referenced store carries exactly
the requested type tags. -/
def BoundMatching (hp : Heap) (ctx : Ctx) (id : String) (kt vt : Ty) (a : Nat) :
    Prop :=
  ∃ pre post c, ctx = pre ++ (GoKey.funcId id, CtxEntry.cacheRef a) :: post ∧
    (∀ p ∈ pre, p.1 ≠ GoKey.funcId id) ∧
    hp[a]? = some c ∧ c.kt = kt ∧ c.vt = vt

/-! ## Definitions: concurrent calls on one store

cacheLoader under the RWMutex decomposes into two atomic phases: the
read-locked lookup (which either finishes with a hit or decides to take
the write lock), and the write-locked section (loader invocation plus
map write). Concurrent reads commute, so an interleaving of N callers
of get with the same key is a sequence of these atomic phases, chosen
by an arbitrary schedule. The miss path does not re-check presence
after acquiring the write lock, exactly as in the source. -/

/-- The phase a single calling thread is in: before its read-locked
lookup, between deciding to load and its write-locked section, or done
with its return value. -/
inductive TPhase (V : Type w) where
  | start
  | load
  | done (v : V)
deriving DecidableEq, Repr

/-- Global state of one store under N concurrent get calls with the
shared key: the map, the loader state, the phase of every thread, and
the total number of loader invocations so far. -/
structure MState (σ : Type u) (K : Type v) (V : Type w) where
  data : List (K × V)
  lstate : σ
  threads : List (TPhase V)
  calls : Nat

/-- One atomic step of thread i calling get with key k: a thread at
start performs its read-locked lookup (a hit finishes it, a miss sends
it to the write lock); a thread at load performs the write-locked
section, invoking the loader once and overwriting the map entry; a
finished or nonexistent thread leaves the state unchanged. -/
def stepThread {σ : Type u} {K : Type v} {V : Type w} [DecidableEq K]
    (loader : K → σ → V × σ) (k : K) (st : MState σ K V) (i : Nat) :
    MState σ K V :=
  match st.threads[i]? with
  | some TPhase.start =>
      match mapGet st.data k with
      | some v => { st with threads := st.threads.set i (TPhase.done v) }
      | none => { st with threads := st.threads.set i TPhase.load }
  | some TPhase.load =>
      let vs := loader k st.lstate
      { data := mapSet st.data k vs.1, lstate := vs.2,
        threads := st.threads.set i (TPhase.done vs.1), calls := st.calls + 1 }
  | _ => st

/-- Run a schedule: the sequence of thread indices chosen to step. -/
def runSched {σ : Type u} {K : Type v} {V : Type w} [DecidableEq K]
    (loader : K → σ → V × σ) (k : K) (st : MState σ K V) :
    List Nat → MState σ K V
  | [] => st
  | i :: rest => runSched loader k (stepThread loader k st i) rest

/-- An impure loader for the concrete concurrency scenario: its value
reveals which invocation produced it. -/
def seqLoader : Int → Nat → Int × Nat := fun _ n => (100 + Int.ofNat n, n + 1)

/-! ## Lemmas: the cache store -/

/-- The hit branch of cacheLoader: a present key is answered from data,
with the store and the loader state untouched. -/
theorem cacheLoader_hit {σ : Type u} {K : Type v} {V : Type w} [DecidableEq K]
    (L : K → σ → V × σ) (d : List (K × V)) (k : K) (v : V) (s : σ)
    (h : mapGet d k = some v) :
    cacheLoader ⟨d, L⟩ k s = (v, ⟨d, L⟩, s) := by
  unfold cacheLoader
  rw [show mapGet (Cache.mk d L).data k = some v from h]

/-- The miss branch of cacheLoader: an absent key is loaded once and the
result is stored under the key. -/
theorem cacheLoader_miss {σ : Type u} {K : Type v} {V : Type w} [DecidableEq K]
    (L : K → σ → V × σ) (d : List (K × V)) (k : K) (s : σ)
    (h : mapGet d k = none) :
    cacheLoader ⟨d, L⟩ k s = ((L k s).1, ⟨mapSet d k (L k s).1, L⟩, (L k s).2) := by
  unfold cacheLoader
  rw [show mapGet (Cache.mk d L).data k = none from h]

theorem mapGet_mapSet_self {K : Type v} {V : Type w} [DecidableEq K]
    (d : List (K × V)) (k : K) (v : V) : mapGet (mapSet d k v) k = some v := by
  induction d with
  | nil => simp [mapSet, mapGet]
  | cons p rest ih =>
      by_cases h : p.1 = k
      · simp [mapSet, h, mapGet]
      · simp [mapSet, h, mapGet, ih]

theorem mapGet_mapSet_ne {K : Type v} {V : Type w} [DecidableEq K]
    (d : List (K × V)) {k q : K} (v : V) (h : q ≠ k) :
    mapGet (mapSet d k v) q = mapGet d q := by
  induction d with
  | nil => simp [mapSet, mapGet, Ne.symm h]
  | cons p rest ih =>
      rw [show mapSet (p :: rest) k v =
            if p.1 = k then (k, v) :: rest else p :: mapSet rest k v from rfl]
      by_cases hp : p.1 = k
      · rw [if_pos hp,
            show mapGet ((k, v) :: rest) q =
              if k = q then some v else mapGet rest q from rfl,
            if_neg (Ne.symm h),
            show mapGet (p :: rest) q =
              if p.1 = q then some p.2 else mapGet rest q from rfl,
            if_neg (by rw [hp]; exact Ne.symm h)]
      · rw [if_neg hp,
            show mapGet (p :: mapSet rest k v) q =
              if p.1 = q then some p.2 else mapGet (mapSet rest k v) q from rfl,
            show mapGet (p :: rest) q =
              if p.1 = q then some p.2 else mapGet rest q from rfl,
            ih]

/-! ## Lemmas: lists -/

theorem find?_concat_some {α : Type u} {p : α → Bool} {l : List α} {x : α} (y : α)
    (h : l.find? p = some x) : (l ++ [y]).find? p = some x := by
  rw [List.find?_append, h]; rfl

theorem find?_concat_none {α : Type u} {p : α → Bool} {l : List α} (y : α)
    (h : l.find? p = none) :
    (l ++ [y]).find? p = if p y then some y else none := by
  rw [List.find?_append, h]
  cases hy : p y <;> simp [List.find?_cons, hy]

theorem countP_concat {α : Type u} (p : α → Bool) (l : List α) (y : α) :
    (l ++ [y]).countP p = l.countP p + (if p y then 1 else 0) := by
  rw [List.countP_append]
  simp [List.countP_cons]

theorem set_concat {α : Type u} (l : List α) (x y : α) :
    (l ++ [x]).set l.length y = l ++ [y] := by
  induction l with
  | nil => rfl
  | cons a l ih =>
      show a :: (l ++ [x]).set l.length y = a :: (l ++ [y])
      rw [ih]

theorem set_append_left {α : Type u} (l₁ l₂ : List α) (n : Nat) (y : α)
    (h : n < l₁.length) : (l₁ ++ l₂).set n y = l₁.set n y ++ l₂ := by
  induction l₁ generalizing n with
  | nil => cases h
  | cons a l ih =>
      cases n with
      | zero => rfl
      | succ m =>
          show a :: (l ++ l₂).set m y = a :: (l.set m y ++ l₂)
          rw [ih m (Nat.lt_of_succ_lt_succ h)]

/-! ## Theorems: claims C1 and C6 -/

/-- C1: per-call contract of cacheLoader. If the key is present in data,
the stored value is returned, data and the loader state are untouched,
and the result does not depend on the loader at all (the loader is not
invoked). If the key is absent, the loader is invoked on the key, its
result is stored under the key in data, and that result is returned. -/
theorem cacheLoader_get_contract {σ : Type u} {K : Type v} {V : Type w} [DecidableEq K]
    (c : Cache σ K V) (k : K) (s : σ) :
    (∀ v, mapGet c.data k = some v →
      cacheLoader c k s = (v, c, s) ∧
      ∀ g : K → σ → V × σ, cacheLoader ⟨c.data, g⟩ k s = (v, ⟨c.data, g⟩, s)) ∧
    (mapGet c.data k = none →
      cacheLoader c k s =
        ((c.loader k s).1, ⟨mapSet c.data k (c.loader k s).1, c.loader⟩,
          (c.loader k s).2)) := by
  refine ⟨fun v hv => ⟨?_, fun g => ?_⟩, fun h => ?_⟩
  · unfold cacheLoader; rw [hv]
  · unfold cacheLoader; rw [show mapGet (Cache.mk c.data g (σ := σ)).data k = some v from hv]
  · unfold cacheLoader; rw [h]

/-- Witness for C1 at a concrete store: key 1 is stored with value 10,
so a get of 1 returns 10 and leaves the store and loader state alone,
while a get of the absent key 2 loads and stores 99. -/
theorem cacheLoader_get_contract_witness :
    cacheLoader (σ := Unit) ⟨[(1, 10)], fun _ s => (99, s)⟩ 1 () =
      (10, ⟨[(1, 10)], fun _ s => (99, s)⟩, ()) ∧
    cacheLoader (σ := Unit) ⟨[(1, 10)], fun _ s => (99, s)⟩ 2 () =
      (99, ⟨[(1, 10), (2, 99)], fun _ s => (99, s)⟩, ()) :=
  ⟨((cacheLoader_get_contract ⟨[(1, 10)], fun _ s => (99, s)⟩ 1 ()).1 10 (by rfl)).1,
   (cacheLoader_get_contract ⟨[(1, 10)], fun _ s => (99, s)⟩ 2 ()).2 (by rfl)⟩

/-- C6: loader-failure atomicity. On a miss whose loader invocation
fails, the failure propagates unchanged to the caller (no retry, no
wrapping) and data is returned exactly as it was, so the key is still
absent and a later get of the key invokes the loader again (and, when
that invocation succeeds, stores and returns its result). -/
theorem cacheLoader_failure_atomic {K : Type v} {V : Type w} {E : Type u} [DecidableEq K]
    (d : List (K × V)) (loader : K → Except E V) (k : K) (e : E)
    (habs : mapGet d k = none) (hfail : loader k = Except.error e) :
    cacheLoaderE d loader k = (Except.error e, d) ∧
    mapGet d k = none ∧
    ∀ (loader2 : K → Except E V) (v : V), loader2 k = Except.ok v →
      cacheLoaderE d loader2 k = (Except.ok v, mapSet d k v) := by
  refine ⟨?_, habs, fun loader2 v hok => ?_⟩
  · unfold cacheLoaderE; rw [habs, hfail]
  · unfold cacheLoaderE; rw [habs, hok]

/-- Witness for C6: an empty store, a loader failing with error 7 on key
3; the failure propagates with the store left empty, and a retry with a
succeeding loader stores its value. -/
theorem cacheLoader_failure_atomic_witness :
    cacheLoaderE ([] : List (Nat × Nat)) (fun _ => Except.error (7 : Nat)) 3 =
      (Except.error 7, []) ∧
    cacheLoaderE ([] : List (Nat × Nat))
      (fun q => (Except.ok (q + 1) : Except Nat Nat)) 3 = (Except.ok 4, [(3, 4)]) :=
  ⟨(cacheLoader_failure_atomic [] (fun _ => Except.error 7) 3 7 (by rfl) rfl).1,
   (cacheLoader_failure_atomic [] (fun _ => Except.error 7) 3 7 (by rfl) rfl).2.2
     (fun q => Except.ok (q + 1)) 4 rfl⟩

/-! ## Theorems: claim C2 -/

theorem runGets_cons {σ : Type u} {K : Type v} {V : Type w} [DecidableEq K]
    (L : K → σ → V × σ) (k : K) (ks : List K) (d : List (K × V)) (s : σ) :
    runGets L (k :: ks) d s =
      ((cacheLoader ⟨d, L⟩ k s).1 ::
        (runGets L ks (cacheLoader ⟨d, L⟩ k s).2.1.data (cacheLoader ⟨d, L⟩ k s).2.2).1,
       (runGets L ks (cacheLoader ⟨d, L⟩ k s).2.1.data (cacheLoader ⟨d, L⟩ k s).2.2).2) :=
  rfl

theorem LogInv_nil {K : Type v} {V : Type w} [DecidableEq K] :
    LogInv ([] : List (K × V)) [] := fun _ => ⟨rfl, rfl⟩

theorem LogInv_extend {K : Type v} {V : Type w} [DecidableEq K]
    {d l : List (K × V)} {k : K} (hI : LogInv d l) (hk : mapGet d k = none)
    (v : V) : LogInv (mapSet d k v) (l ++ [(k, v)]) := by
  have hlnone : l.find? (keyIs k) = none := by
    cases hf : l.find? (keyIs k) with
    | none => rfl
    | some x =>
        have := (hI k).1
        rw [hk, hf] at this
        simp at this
  intro q
  by_cases hq : q = k
  · subst hq
    refine ⟨?_, ?_⟩
    · rw [mapGet_mapSet_self, find?_concat_none _ hlnone]
      simp [keyIs]
    · rw [countP_concat, mapGet_mapSet_self]
      have h2 : l.countP (keyIs q) = 0 := by rw [(hI q).2, hk]; rfl
      rw [h2]
      simp [keyIs]
  · have hkq : keyIs q ((k, v) : K × V) = false := by
      simp [keyIs, Ne.symm hq]
    refine ⟨?_, ?_⟩
    · rw [mapGet_mapSet_ne d v hq]
      cases hf : l.find? (keyIs q) with
      | none => rw [find?_concat_none _ hf, hkq, (hI q).1, hf]; simp
      | some x => rw [find?_concat_some _ hf, (hI q).1, hf]
    · rw [countP_concat, hkq, mapGet_mapSet_ne d v hq]
      simp [(hI q).2]

/-- Main induction for C2: along any single-threaded key sequence, the
log invariant is preserved, logged invocations are never revisited, the
final map holds exactly the initially present keys plus the requested
ones, and every returned value is the value of the unique logged loader
invocation for its key. -/
theorem runGets_log_spec {σ : Type u} {K : Type v} {V : Type w} [DecidableEq K]
    (f : K → σ → V × σ) :
    ∀ (ks : List K) (d : List (K × V)) (s : σ) (l : List (K × V)), LogInv d l →
      LogInv (runGets (logLoader f) ks d (s, l)).2.1
        (runGets (logLoader f) ks d (s, l)).2.2.2 ∧
      (∀ q : K, (l.find? (keyIs q)).isSome →
        (runGets (logLoader f) ks d (s, l)).2.2.2.find? (keyIs q) =
          l.find? (keyIs q)) ∧
      (∀ q : K, (mapGet (runGets (logLoader f) ks d (s, l)).2.1 q).isSome ↔
        ((mapGet d q).isSome ∨ q ∈ ks)) ∧
      List.Forall₂
        (fun k v =>
          ((runGets (logLoader f) ks d (s, l)).2.2.2.find? (keyIs k)).map Prod.snd =
            some v)
        ks (runGets (logLoader f) ks d (s, l)).1 := by
  intro ks
  induction ks with
  | nil =>
      intro d s l hI
      refine ⟨hI, fun q _ => rfl, fun q => by simp [runGets], List.Forall₂.nil⟩
  | cons k ks ih =>
      intro d s l hI
      cases hmk : mapGet d k with
      | some v =>
          have hstep : cacheLoader ⟨d, logLoader f⟩ k (s, l) = (v, ⟨d, logLoader f⟩, (s, l)) :=
            cacheLoader_hit _ _ _ _ _ hmk
          rw [runGets_cons]
          rw [hstep]
          obtain ⟨ih1, ih2, ih3, ih4⟩ := ih d s l hI
          refine ⟨ih1, ih2, ?_, ?_⟩
          · intro q
            rw [List.mem_cons]
            constructor
            · intro h
              rcases (ih3 q).mp h with h1 | h2
              · exact Or.inl h1
              · exact Or.inr (Or.inr h2)
            · rintro (h1 | h2 | h3)
              · exact (ih3 q).mpr (Or.inl h1)
              · exact (ih3 q).mpr (Or.inl (by rw [h2, hmk]; rfl))
              · exact (ih3 q).mpr (Or.inr h3)
          · rw [List.forall₂_cons]
            refine ⟨?_, ih4⟩
            have h1 := (hI k).1
            cases hf : l.find? (keyIs k) with
            | none => rw [hf] at h1; simp [hmk] at h1
            | some x =>
                have hres := ih2 k (by rw [hf]; rfl)
                rw [hres, hf]
                rw [hf] at h1
                rw [hmk] at h1
                simpa using h1.symm
      | none =>
          have hstep : cacheLoader ⟨d, logLoader f⟩ k (s, l) =
              ((f k s).1, ⟨mapSet d k (f k s).1, logLoader f⟩,
                ((f k s).2, l ++ [(k, (f k s).1)])) := by
            rw [cacheLoader_miss _ _ _ _ hmk]; rfl
          rw [runGets_cons]
          rw [hstep]
          have hlnone : l.find? (keyIs k) = none := by
            cases hf : l.find? (keyIs k) with
            | none => rfl
            | some x =>
                have := (hI k).1
                rw [hmk, hf] at this
                simp at this
          have hI2 := LogInv_extend hI hmk (f k s).1
          obtain ⟨ih1, ih2, ih3, ih4⟩ :=
            ih (mapSet d k (f k s).1) (f k s).2 (l ++ [(k, (f k s).1)]) hI2
          have hl2 : (l ++ [(k, (f k s).1)]).find? (keyIs k) = some (k, (f k s).1) := by
            rw [find?_concat_none _ hlnone]
            simp [keyIs]
          refine ⟨ih1, ?_, ?_, ?_⟩
          · intro q hq
            have heq : (l ++ [(k, (f k s).1)]).find? (keyIs q) = l.find? (keyIs q) := by
              cases hf : l.find? (keyIs q) with
              | none => rw [hf] at hq; simp at hq
              | some x => exact find?_concat_some _ hf
            rw [ih2 q (by rw [heq]; exact hq), heq]
          · intro q
            rw [ih3 q, List.mem_cons]
            by_cases hq : q = k
            · subst hq
              simp [mapGet_mapSet_self]
            · rw [mapGet_mapSet_ne d _ hq]
              constructor
              · rintro (h1 | h2)
                · exact Or.inl h1
                · exact Or.inr (Or.inr h2)
              · rintro (h1 | h2 | h3)
                · exact Or.inl h1
                · exact absurd h2 hq
                · exact Or.inr h3
          · rw [List.forall₂_cons]
            refine ⟨?_, ih4⟩
            rw [ih2 k (by rw [hl2]; rfl), hl2]
            rfl

/-- C2: sequential memoization and write-once permanence. For any loader
(side effects allowed, threaded through σ) and any single-threaded key
sequence starting from a fresh store, the loader is invoked exactly once
for each requested key and never for other keys, and every returned
value is the value produced by the (first and only) logged loader
invocation for its key. In particular, with loader n.toString and calls
1, 1, 2 the values are "1", "1", "2" and the loader ran exactly for 1
and then 2. -/
theorem cacheLoader_memoizes_seq :
    (∀ (σ : Type u) (K : Type v) (V : Type w) [DecidableEq K]
      (f : K → σ → V × σ) (ks : List K) (s : σ),
      (∀ q : K, (runGets (logLoader f) ks [] (s, [])).2.2.2.countP (keyIs q) =
        if q ∈ ks then 1 else 0) ∧
      List.Forall₂
        (fun k v =>
          ((runGets (logLoader f) ks [] (s, [])).2.2.2.find? (keyIs k)).map Prod.snd =
            some v)
        ks (runGets (logLoader f) ks [] (s, [])).1) ∧
    (runGets (logLoader (fun (n : Int) (u : Unit) => (toString n, u)))
        [1, 1, 2] [] ((), [])).1 = ["1", "1", "2"] ∧
    (runGets (logLoader (fun (n : Int) (u : Unit) => (toString n, u)))
        [1, 1, 2] [] ((), [])).2.2.2 = [(1, "1"), (2, "2")] := by
  refine ⟨?_, by decide, by decide⟩
  intro σ K V _ f ks s
  obtain ⟨h1, _, h3, h4⟩ := runGets_log_spec f ks [] s [] LogInv_nil
  refine ⟨?_, h4⟩
  intro q
  have hs : (mapGet (runGets (logLoader f) ks [] (s, [])).2.1 q).isSome ↔ q ∈ ks := by
    rw [h3 q, show mapGet ([] : List (K × V)) q = none from rfl]
    simp
  rw [(h1 q).2]
  exact if_congr hs rfl rfl

/-! ## Lemmas: context lookup and resolution -/

theorem ctxValue_eq_some_iff (ctx : Ctx) (key : GoKey) (ent : CtxEntry) :
    ctxValue ctx key = some ent ↔
      ∃ pre post, ctx = pre ++ (key, ent) :: post ∧ ∀ p ∈ pre, p.1 ≠ key := by
  unfold ctxValue
  constructor
  · intro h
    rcases Option.map_eq_some'.mp h with ⟨pr, hfind, hsnd⟩
    have hp := List.find?_some hfind
    have hfst : pr.1 = key := by simpa using hp
    rcases List.find?_eq_some.mp hfind with ⟨_, pre, post, heq, hpre⟩
    have hpr : pr = (key, ent) := by rw [← hfst, ← hsnd]
    refine ⟨pre, post, by rw [heq, hpr], fun p hp => ?_⟩
    have := hpre p hp
    simpa using this
  · rintro ⟨pre, post, rfl, hpre⟩
    have hfind : List.find? (fun e => decide (e.1 = key)) (pre ++ (key, ent) :: post) =
        some (key, ent) := by
      apply List.find?_eq_some.mpr
      refine ⟨by simp, pre, post, rfl, fun p hp => ?_⟩
      simp [hpre p hp]
    rw [hfind]
    rfl

theorem ctxValue_cons_self (id : String) (e : CtxEntry) (ctx : Ctx) :
    ctxValue ((GoKey.funcId id, e) :: ctx) (GoKey.funcId id) = some e := by
  unfold ctxValue
  simp [List.find?_cons]

theorem ctxValue_cons_ne (fr : GoKey × CtxEntry) (ctx : Ctx) (key : GoKey)
    (h : fr.1 ≠ key) : ctxValue (fr :: ctx) key = ctxValue ctx key := by
  unfold ctxValue
  rw [List.find?_cons]
  simp [h]

theorem ctxValue_append_of_not_bound (ext : Ctx) (ctx : Ctx) (key : GoKey)
    (h : ∀ p ∈ ext, p.1 ≠ key) : ctxValue (ext ++ ctx) key = ctxValue ctx key := by
  unfold ctxValue
  rw [List.find?_append]
  have : List.find? (fun e => decide (e.1 = key)) ext = none := by
    rw [List.find?_eq_none]
    intro p hp
    simp [h p hp]
  rw [this]
  rfl

theorem assertCache_eq_some {hp : Heap} {ent : Option CtxEntry} {kt vt : Ty} {a : Nat} :
    assertCache hp ent kt vt = some a ↔
      ∃ c, ent = some (CtxEntry.cacheRef a) ∧ hp[a]? = some c ∧ c.kt = kt ∧ c.vt = vt := by
  cases ent with
  | none =>
      constructor
      · intro h; cases h
      · rintro ⟨c, hent, _⟩; cases hent
  | some e =>
      cases e with
      | otherVal vv =>
          constructor
          · intro h; cases h
          · rintro ⟨c, hent, _⟩; cases hent
      | cacheRef a2 =>
          show (match hp[a2]? with
                | some c => if c.kt = kt ∧ c.vt = vt then some a2 else none
                | none => none) = some a ↔ _
          cases hga : hp[a2]? with
          | none =>
              show (none : Option Nat) = some a ↔ _
              constructor
              · intro h; cases h
              · rintro ⟨c, hent, hga2, _⟩
                obtain rfl : a2 = a := by
                  injection hent with h1; injection h1
                rw [hga] at hga2; cases hga2
          | some c0 =>
              show (if c0.kt = kt ∧ c0.vt = vt then some a2 else none) = some a ↔ _
              by_cases htag : c0.kt = kt ∧ c0.vt = vt
              · rw [if_pos htag]
                constructor
                · intro h
                  obtain rfl : a2 = a := by injection h
                  exact ⟨c0, rfl, hga, htag.1, htag.2⟩
                · rintro ⟨c, hent, hga2, _⟩
                  obtain rfl : a2 = a := by
                    injection hent with h1; injection h1
                  rfl
              · rw [if_neg htag]
                constructor
                · intro h; cases h
                · rintro ⟨c, hent, hga2, hk, hv⟩
                  obtain rfl : a2 = a := by
                    injection hent with h1; injection h1
                  rw [hga] at hga2
                  injection hga2 with hc
                  exact absurd ⟨by rw [hc]; exact hk, by rw [hc]; exact hv⟩ htag

theorem assertCache_none_of_ctxValue_none {hp : Heap} {kt vt : Ty} :
    assertCache hp none kt vt = none := rfl

theorem FromContext_of_assert_some {hp : Heap} {ctx : Ctx} {id : String}
    {kt vt : Ty} {a : Nat}
    (h : assertCache hp (ctxValue ctx (GoKey.funcId id)) kt vt = some a) :
    FromContext hp ctx id kt vt = (some a, true) := by
  unfold FromContext; rw [h]

theorem FromContext_of_assert_none {hp : Heap} {ctx : Ctx} {id : String}
    {kt vt : Ty}
    (h : assertCache hp (ctxValue ctx (GoKey.funcId id)) kt vt = none) :
    FromContext hp ctx id kt vt = (none, false) := by
  unfold FromContext; rw [h]

theorem FromContextLoader_of_assert_some {hp : Heap} {ctx : Ctx} {id : String}
    {kt vt : Ty} {a : Nat}
    (h : assertCache hp (ctxValue ctx (GoKey.funcId id)) kt vt = some a) :
    FromContextLoader hp ctx id kt vt = Callable.cached a := by
  unfold FromContextLoader; rw [h]

theorem FromContextLoader_of_assert_none {hp : Heap} {ctx : Ctx} {id : String}
    {kt vt : Ty}
    (h : assertCache hp (ctxValue ctx (GoKey.funcId id)) kt vt = none) :
    FromContextLoader hp ctx id kt vt = Callable.direct := by
  unfold FromContextLoader; rw [h]

theorem FromContextF_of_assert_some {hp : Heap} {ctx : Ctx} {id : String}
    {kt vt : Ty} {a : Nat}
    (h : assertCache hp (ctxValue ctx (GoKey.funcId id)) kt vt = some a) :
    FromContextF hp ctx id kt vt = (Callable.cached a, true) := by
  unfold FromContextF; rw [h]

theorem FromContextF_of_assert_none {hp : Heap} {ctx : Ctx} {id : String}
    {kt vt : Ty}
    (h : assertCache hp (ctxValue ctx (GoKey.funcId id)) kt vt = none) :
    FromContextF hp ctx id kt vt = (Callable.direct, false) := by
  unfold FromContextF; rw [h]

/-! ## Theorems: claim C3 -/

/-- C3: resolve contract of FromContext. It returns a callable (the
address of the bound store, whose get it forwards to) together with
found = true exactly when the innermost binding of the identifier in the
context chain is a cache store whose key/value type tags match the
requested ones; in every other case — identifier unbound anywhere in the
chain, bound to a non-cache value, or bound to a store with mismatched
tags — it returns the null callable (none) with found = false; no other
outcome (in particular no fault) is possible. -/
theorem fromContext_resolve_contract (hp : Heap) (ctx : Ctx) (id : String)
    (kt vt : Ty) :
    (∀ a : Nat, FromContext hp ctx id kt vt = (some a, true) ↔
      BoundMatching hp ctx id kt vt a) ∧
    ((∃ a : Nat, FromContext hp ctx id kt vt = (some a, true)) ∨
      FromContext hp ctx id kt vt = (none, false)) := by
  constructor
  · intro a
    constructor
    · intro h
      cases hac : assertCache hp (ctxValue ctx (GoKey.funcId id)) kt vt with
      | none => rw [FromContext_of_assert_none hac] at h; simp at h
      | some a2 =>
          rw [FromContext_of_assert_some hac] at h
          obtain rfl : a2 = a := by
            injection h with h1 h2; injection h1
          rcases assertCache_eq_some.mp hac with ⟨c, hent, hga, hk, hv⟩
          rcases (ctxValue_eq_some_iff ctx _ _).mp hent with ⟨pre, post, heq, hpre⟩
          exact ⟨pre, post, c, heq, hpre, hga, hk, hv⟩
    · rintro ⟨pre, post, c, heq, hpre, hga, hk, hv⟩
      have hcv : ctxValue ctx (GoKey.funcId id) = some (CtxEntry.cacheRef a) :=
        (ctxValue_eq_some_iff ctx _ _).mpr ⟨pre, post, heq, hpre⟩
      exact FromContext_of_assert_some (assertCache_eq_some.mpr ⟨c, hcv, hga, hk, hv⟩)
  · cases hac : assertCache hp (ctxValue ctx (GoKey.funcId id)) kt vt with
    | none => exact Or.inr (FromContext_of_assert_none hac)
    | some a2 => exact Or.inl ⟨a2, FromContext_of_assert_some hac⟩

/-- Witness for C3: in a context whose single frame binds identifier n
to a store of tags (int, str) at address 0, resolving n at those tags
succeeds with the store address, by the characterization; and resolving
with a mismatched value tag falls in the not-found case of the
dichotomy. -/
theorem fromContext_resolve_contract_witness :
    FromContext [⟨Ty.int, Ty.str, [], fun _ => DynVal.strV "x"⟩]
      [(GoKey.funcId "n", CtxEntry.cacheRef 0)] "n" Ty.int Ty.str = (some 0, true) :=
  ((fromContext_resolve_contract _ _ "n" Ty.int Ty.str).1 0).mpr
    ⟨[], [], ⟨Ty.int, Ty.str, [], fun _ => DynVal.strV "x"⟩, rfl, by simp, rfl, rfl, rfl⟩

/-! ## Theorems: claim C5 -/

/-- C5: WithCache never mutates its input context. The returned context
is the input context extended (as its unchanged tail) with one new
frame; every resolution against the original context answers exactly as
it did before the bind (the fresh store is appended past the end of the
old heap, so old references are untouched); in particular an identifier
that resolved to not-found on the original context still does. -/
theorem withCache_no_mutate (ctx : Ctx) (hp : Heap) (id : String) (kt vt : Ty)
    (f : DynVal → DynVal) (hwf : CtxWF hp ctx) :
    (WithCache ctx hp id kt vt f).1 =
      (GoKey.funcId id, CtxEntry.cacheRef hp.length) :: ctx ∧
    (∀ (id2 : String) (kt2 vt2 : Ty),
      FromContext (WithCache ctx hp id kt vt f).2 ctx id2 kt2 vt2 =
        FromContext hp ctx id2 kt2 vt2) ∧
    (FromContext hp ctx id kt vt = (none, false) →
      FromContext (WithCache ctx hp id kt vt f).2 ctx id kt vt = (none, false)) := by
  have hassert : ∀ (key : GoKey) (kt2 vt2 : Ty),
      assertCache (hp ++ [⟨kt, vt, [], f⟩]) (ctxValue ctx key) kt2 vt2 =
        assertCache hp (ctxValue ctx key) kt2 vt2 := by
    intro key kt2 vt2
    cases hcv : ctxValue ctx key with
    | none => rfl
    | some ent =>
        cases ent with
        | otherVal vv => rfl
        | cacheRef a =>
            have ha : a < hp.length := by
              rcases (ctxValue_eq_some_iff ctx _ _).mp hcv with ⟨pre, post, heq, _⟩
              exact hwf (key, CtxEntry.cacheRef a) (by rw [heq]; simp) a rfl
            show (match (hp ++ [⟨kt, vt, [], f⟩])[a]? with
                  | some c => if c.kt = kt2 ∧ c.vt = vt2 then some a else none
                  | none => none) =
                 (match hp[a]? with
                  | some c => if c.kt = kt2 ∧ c.vt = vt2 then some a else none
                  | none => none)
            rw [List.getElem?_append_left ha]
  have h2 : ∀ (id2 : String) (kt2 vt2 : Ty),
      FromContext (WithCache ctx hp id kt vt f).2 ctx id2 kt2 vt2 =
        FromContext hp ctx id2 kt2 vt2 := by
    intro id2 kt2 vt2
    show FromContext (hp ++ [⟨kt, vt, [], f⟩]) ctx id2 kt2 vt2 =
      FromContext hp ctx id2 kt2 vt2
    unfold FromContext
    rw [hassert]
  exact ⟨rfl, h2, fun hnone => by rw [h2 id kt vt]; exact hnone⟩

/-- Witness for C5: binding identifier n into the empty context does not
make n resolvable on the original (empty) context. -/
theorem withCache_no_mutate_witness :
    FromContext (WithCache [] [] "n" Ty.int Ty.str (fun x => x)).2 [] "n" Ty.int Ty.str =
      (none, false) :=
  (withCache_no_mutate [] [] "n" Ty.int Ty.str (fun x => x)
    (by intro p hp; cases hp)).2.2 rfl

/-! ## Lemmas: calling resolved callables -/

theorem mapGet_cons_self {K : Type v} {V : Type w} [DecidableEq K]
    (k : K) (v : V) (d : List (K × V)) : mapGet ((k, v) :: d) k = some v := by
  simp [mapGet]

theorem callCallable_cached_of_get (hp : Heap) (a : Nat) (kt vt : Ty)
    (dd : List (DynVal × DynVal)) (ld : DynVal → DynVal)
    (g : DynVal → DynVal) (k : DynVal)
    (hga : hp[a]? = some ⟨kt, vt, dd, ld⟩) :
    callCallable hp (Callable.cached a) g k =
      match mapGet dd k with
      | some v => (v, hp, 0)
      | none => (ld k, hp.set a ⟨kt, vt, mapSet dd k (ld k), ld⟩, 1) := by
  show (match hp[a]? with
        | none => (g k, hp, 1)
        | some c =>
            match mapGet c.data k with
            | some v => (v, hp, 0)
            | none =>
                (c.loader k, hp.set a { c with data := mapSet c.data k (c.loader k) }, 1)) = _
  rw [hga]

/-! ## Theorems: claim C4 -/

/-- C4: resolveOrFallback contract of FromContextLoader. When resolve
succeeds it returns the very callable resolve returns; when resolve
reports not-found it returns the supplied loader itself, uncached: with
no prior bind of the identifier, two calls with the same key invoke the
fallback loader twice and touch no store, while after a bind, two calls
with the same key through the returned callable invoke the bound loader
exactly once, the second call being answered from the store. -/
theorem fromContextLoader_fallback_contract :
    (∀ (hp : Heap) (ctx : Ctx) (id : String) (kt vt : Ty) (a : Nat),
      FromContext hp ctx id kt vt = (some a, true) →
        FromContextLoader hp ctx id kt vt = Callable.cached a) ∧
    (∀ (hp : Heap) (ctx : Ctx) (id : String) (kt vt : Ty),
      (FromContext hp ctx id kt vt).2 = false →
        FromContextLoader hp ctx id kt vt = Callable.direct) ∧
    (∀ (hp : Heap) (ctx : Ctx) (id : String) (kt vt : Ty)
      (f : DynVal → DynVal) (k : DynVal),
      ctxValue ctx (GoKey.funcId id) = none →
        FromContextLoader hp ctx id kt vt = Callable.direct ∧
        callTwice hp (FromContextLoader hp ctx id kt vt) f k = (f k, f k, hp, 2)) ∧
    (∀ (ctx : Ctx) (hp : Heap) (id : String) (kt vt : Ty)
      (f g : DynVal → DynVal) (k : DynVal),
      FromContextLoader (WithCache ctx hp id kt vt f).2 (WithCache ctx hp id kt vt f).1
          id kt vt = Callable.cached hp.length ∧
      callTwice (WithCache ctx hp id kt vt f).2
        (FromContextLoader (WithCache ctx hp id kt vt f).2
          (WithCache ctx hp id kt vt f).1 id kt vt) g k =
        (f k, f k, hp ++ [⟨kt, vt, [(k, f k)], f⟩], 1)) := by
  refine ⟨?_, ?_, ?_, ?_⟩
  · intro hp ctx id kt vt a h
    cases hac : assertCache hp (ctxValue ctx (GoKey.funcId id)) kt vt with
    | none => rw [FromContext_of_assert_none hac] at h; simp at h
    | some a2 =>
        rw [FromContext_of_assert_some hac] at h
        obtain rfl : a2 = a := by injection h with h1 h2; injection h1
        exact FromContextLoader_of_assert_some hac
  · intro hp ctx id kt vt h
    cases hac : assertCache hp (ctxValue ctx (GoKey.funcId id)) kt vt with
    | none => exact FromContextLoader_of_assert_none hac
    | some a2 => rw [FromContext_of_assert_some hac] at h; simp at h
  · intro hp ctx id kt vt f k hcv
    have hac : assertCache hp (ctxValue ctx (GoKey.funcId id)) kt vt = none := by
      rw [hcv]
      exact assertCache_none_of_ctxValue_none
    have hfcl := FromContextLoader_of_assert_none hac
    refine ⟨hfcl, ?_⟩
    rw [hfcl]
    rfl
  · intro ctx hp id kt vt f g k
    have hac : assertCache (hp ++ [⟨kt, vt, [], f⟩])
        (ctxValue ((GoKey.funcId id, CtxEntry.cacheRef hp.length) :: ctx)
          (GoKey.funcId id)) kt vt = some hp.length :=
      assertCache_eq_some.mpr
        ⟨⟨kt, vt, [], f⟩, by rw [ctxValue_cons_self],
          List.getElem?_concat_length hp _, rfl, rfl⟩
    have hfcl : FromContextLoader (WithCache ctx hp id kt vt f).2
        (WithCache ctx hp id kt vt f).1 id kt vt = Callable.cached hp.length :=
      FromContextLoader_of_assert_some hac
    refine ⟨hfcl, ?_⟩
    rw [hfcl]
    show callTwice (hp ++ [⟨kt, vt, [], f⟩]) (Callable.cached hp.length) g k = _
    have hc1 : callCallable (hp ++ [⟨kt, vt, [], f⟩]) (Callable.cached hp.length) g k =
        (f k, (hp ++ [(⟨kt, vt, [], f⟩ : GoCache)]).set hp.length
          (⟨kt, vt, [(k, f k)], f⟩ : GoCache), 1) := by
      rw [callCallable_cached_of_get _ _ kt vt [] f g k (List.getElem?_concat_length hp _)]
      rfl
    rw [set_concat] at hc1
    have hc2 : callCallable (hp ++ [⟨kt, vt, [(k, f k)], f⟩]) (Callable.cached hp.length) g k =
        (f k, hp ++ [⟨kt, vt, [(k, f k)], f⟩], 0) := by
      rw [callCallable_cached_of_get _ _ kt vt [(k, f k)] f g k
            (List.getElem?_concat_length hp _),
          mapGet_cons_self]
    show (let r1 := callCallable (hp ++ [⟨kt, vt, [], f⟩]) (Callable.cached hp.length) g k
          let r2 := callCallable r1.2.1 (Callable.cached hp.length) g k
          (r1.1, r2.1, r2.2.1, r1.2.2 + r2.2.2)) = _
    rw [hc1]
    show (f k, (callCallable (hp ++ [⟨kt, vt, [(k, f k)], f⟩]) (Callable.cached hp.length) g k).1,
          (callCallable (hp ++ [⟨kt, vt, [(k, f k)], f⟩]) (Callable.cached hp.length) g k).2.1,
          1 + (callCallable (hp ++ [⟨kt, vt, [(k, f k)], f⟩]) (Callable.cached hp.length) g k).2.2) = _
    rw [hc2]
    rfl

/-- Witness for C4: with no bind in the empty context, two calls through
the fallback invoke it twice; after a bind of the identity loader, two
calls through the resolved callable invoke it once and the store holds
the value. -/
theorem fromContextLoader_fallback_contract_witness :
    callTwice [] (FromContextLoader [] [] "n" Ty.int Ty.str)
        (fun _ => DynVal.intV 5) (DynVal.intV 1) =
      (DynVal.intV 5, DynVal.intV 5, [], 2) ∧
    callTwice (WithCache [] [] "n" Ty.int Ty.int (fun x => x)).2
        (FromContextLoader (WithCache [] [] "n" Ty.int Ty.int (fun x => x)).2
          (WithCache [] [] "n" Ty.int Ty.int (fun x => x)).1 "n" Ty.int Ty.int)
        (fun _ => DynVal.intV 9) (DynVal.intV 1) =
      (DynVal.intV 1, DynVal.intV 1,
        [⟨Ty.int, Ty.int, [(DynVal.intV 1, DynVal.intV 1)], fun x => x⟩], 1) :=
  ⟨(fromContextLoader_fallback_contract.2.2.1 [] [] "n" Ty.int Ty.str
      (fun _ => DynVal.intV 5) (DynVal.intV 1) rfl).2,
   (fromContextLoader_fallback_contract.2.2.2 [] [] "n" Ty.int Ty.int
      (fun x => x) (fun _ => DynVal.intV 9) (DynVal.intV 1)).2⟩

/-! ## Theorems: claim C10 -/

/-- C10: the two fallback-retrieval variants are equivalent. For every
context, identifier and type pair, the callable FromContextLoader
returns equals the callable component of the part_005 FromContext
variant; both are the bound store's cacheLoader exactly when the current
FromContext resolves the identifier, and the passed-through loader
otherwise. -/
theorem fromContextLoader_variants_equiv (hp : Heap) (ctx : Ctx) (id : String)
    (kt vt : Ty) :
    FromContextLoader hp ctx id kt vt = (FromContextF hp ctx id kt vt).1 ∧
    (FromContextF hp ctx id kt vt).2 = (FromContext hp ctx id kt vt).2 ∧
    (∀ a : Nat, (FromContextF hp ctx id kt vt).1 = Callable.cached a ↔
      (FromContext hp ctx id kt vt).1 = some a) := by
  cases hac : assertCache hp (ctxValue ctx (GoKey.funcId id)) kt vt with
  | none =>
      rw [FromContextLoader_of_assert_none hac, FromContextF_of_assert_none hac,
          FromContext_of_assert_none hac]
      exact ⟨rfl, rfl, fun a => by simp⟩
  | some a2 =>
      rw [FromContextLoader_of_assert_some hac, FromContextF_of_assert_some hac,
          FromContext_of_assert_some hac]
      exact ⟨rfl, rfl, fun a => by simp⟩

/-- Witness for C10 at a concrete context with one binding. -/
theorem fromContextLoader_variants_equiv_witness :
    FromContextLoader (WithCache [] [] "n" Ty.int Ty.int (fun x => x)).2
        (WithCache [] [] "n" Ty.int Ty.int (fun x => x)).1 "n" Ty.int Ty.int =
      (FromContextF (WithCache [] [] "n" Ty.int Ty.int (fun x => x)).2
        (WithCache [] [] "n" Ty.int Ty.int (fun x => x)).1 "n" Ty.int Ty.int).1 :=
  (fromContextLoader_variants_equiv _ _ "n" Ty.int Ty.int).1

/-! ## Theorems: claim C7 -/

/-- C7: independence of distinct identifiers. After binding store A
under identifier A and store B under a distinct identifier B, resolving
A yields the callable of A's store and resolving B that of B's store,
two distinct stores; calling A's callable computes through A's loader f
only, rewrites only A's heap cell (B's store is untouched), and a second
call with the same key is served from A's store without any loader
invocation; symmetrically for B. -/
theorem withCache_independent_ids (c0 : Ctx) (hp0 : Heap) (A B : String)
    (ktA vtA ktB vtB : Ty) (f g : DynVal → DynVal) (hAB : A ≠ B)
    (ctx1 : Ctx) (hp1 : Heap) (ctx2 : Ctx) (hp2 : Heap)
    (h1 : (ctx1, hp1) = WithCache c0 hp0 A ktA vtA f)
    (h2 : (ctx2, hp2) = WithCache ctx1 hp1 B ktB vtB g) :
    FromContext hp2 ctx2 A ktA vtA = (some hp0.length, true) ∧
    FromContext hp2 ctx2 B ktB vtB = (some (hp0.length + 1), true) ∧
    (FromContext hp2 ctx2 A ktA vtA).1 ≠ (FromContext hp2 ctx2 B ktB vtB).1 ∧
    hp2[hp0.length]? = some ⟨ktA, vtA, [], f⟩ ∧
    hp2[hp0.length + 1]? = some ⟨ktB, vtB, [], g⟩ ∧
    (∀ (fb : DynVal → DynVal) (k : DynVal),
      callCallable hp2 (Callable.cached hp0.length) fb k =
        (f k, hp0 ++ [⟨ktA, vtA, [(k, f k)], f⟩] ++ [⟨ktB, vtB, [], g⟩], 1) ∧
      (hp0 ++ [⟨ktA, vtA, [(k, f k)], f⟩] ++ [⟨ktB, vtB, [], g⟩])[hp0.length + 1]? =
        some ⟨ktB, vtB, [], g⟩ ∧
      callCallable (hp0 ++ [⟨ktA, vtA, [(k, f k)], f⟩] ++ [⟨ktB, vtB, [], g⟩])
          (Callable.cached hp0.length) fb k =
        (f k, hp0 ++ [⟨ktA, vtA, [(k, f k)], f⟩] ++ [⟨ktB, vtB, [], g⟩], 0)) ∧
    (∀ (fb : DynVal → DynVal) (k : DynVal),
      callCallable hp2 (Callable.cached (hp0.length + 1)) fb k =
        (g k, hp0 ++ [⟨ktA, vtA, [], f⟩] ++ [⟨ktB, vtB, [(k, g k)], g⟩], 1) ∧
      (hp0 ++ [⟨ktA, vtA, [], f⟩] ++ [⟨ktB, vtB, [(k, g k)], g⟩])[hp0.length]? =
        some ⟨ktA, vtA, [], f⟩) := by
  have e1 : ctx1 = (GoKey.funcId A, CtxEntry.cacheRef hp0.length) :: c0 :=
    congrArg Prod.fst h1
  have e2 : hp1 = hp0 ++ [⟨ktA, vtA, [], f⟩] := congrArg Prod.snd h1
  subst e1; subst e2
  have e3 : ctx2 = (GoKey.funcId B,
      CtxEntry.cacheRef (hp0 ++ [(⟨ktA, vtA, [], f⟩ : GoCache)]).length) ::
      ((GoKey.funcId A, CtxEntry.cacheRef hp0.length) :: c0) := congrArg Prod.fst h2
  have e4 : hp2 = (hp0 ++ [⟨ktA, vtA, [], f⟩]) ++ [⟨ktB, vtB, [], g⟩] :=
    congrArg Prod.snd h2
  subst e3; subst e4
  have hlenA : (hp0 ++ [(⟨ktA, vtA, [], f⟩ : GoCache)]).length = hp0.length + 1 := by
    simp
  have hltA : hp0.length < (hp0 ++ [(⟨ktA, vtA, [], f⟩ : GoCache)]).length := by
    simp
  have hgetA : ((hp0 ++ [⟨ktA, vtA, [], f⟩]) ++ [(⟨ktB, vtB, [], g⟩ : GoCache)])[hp0.length]? =
      some ⟨ktA, vtA, [], f⟩ := by
    rw [List.getElem?_append_left hltA]
    exact List.getElem?_concat_length hp0 _
  have hgetB : ((hp0 ++ [⟨ktA, vtA, [], f⟩]) ++ [(⟨ktB, vtB, [], g⟩ : GoCache)])[hp0.length + 1]? =
      some ⟨ktB, vtB, [], g⟩ := by
    rw [← hlenA]
    exact List.getElem?_concat_length _ _
  have hcvA : ctxValue ((GoKey.funcId B,
      CtxEntry.cacheRef (hp0 ++ [(⟨ktA, vtA, [], f⟩ : GoCache)]).length) ::
      ((GoKey.funcId A, CtxEntry.cacheRef hp0.length) :: c0)) (GoKey.funcId A) =
      some (CtxEntry.cacheRef hp0.length) := by
    rw [ctxValue_cons_ne _ _ _ (by simp [Ne.symm hAB]), ctxValue_cons_self]
  have hcvB : ctxValue ((GoKey.funcId B,
      CtxEntry.cacheRef (hp0 ++ [(⟨ktA, vtA, [], f⟩ : GoCache)]).length) ::
      ((GoKey.funcId A, CtxEntry.cacheRef hp0.length) :: c0)) (GoKey.funcId B) =
      some (CtxEntry.cacheRef (hp0.length + 1)) := by
    rw [ctxValue_cons_self, hlenA]
  have hA : FromContext ((hp0 ++ [⟨ktA, vtA, [], f⟩]) ++ [⟨ktB, vtB, [], g⟩])
      ((GoKey.funcId B,
        CtxEntry.cacheRef (hp0 ++ [(⟨ktA, vtA, [], f⟩ : GoCache)]).length) ::
        ((GoKey.funcId A, CtxEntry.cacheRef hp0.length) :: c0)) A ktA vtA =
      (some hp0.length, true) :=
    FromContext_of_assert_some
      (assertCache_eq_some.mpr ⟨⟨ktA, vtA, [], f⟩, hcvA, hgetA, rfl, rfl⟩)
  have hB : FromContext ((hp0 ++ [⟨ktA, vtA, [], f⟩]) ++ [⟨ktB, vtB, [], g⟩])
      ((GoKey.funcId B,
        CtxEntry.cacheRef (hp0 ++ [(⟨ktA, vtA, [], f⟩ : GoCache)]).length) ::
        ((GoKey.funcId A, CtxEntry.cacheRef hp0.length) :: c0)) B ktB vtB =
      (some (hp0.length + 1), true) :=
    FromContext_of_assert_some
      (assertCache_eq_some.mpr ⟨⟨ktB, vtB, [], g⟩, hcvB, hgetB, rfl, rfl⟩)
  refine ⟨hA, hB, ?_, hgetA, hgetB, ?_, ?_⟩
  · rw [hA, hB]
    simp
  · intro fb k
    have hc1 : callCallable ((hp0 ++ [⟨ktA, vtA, [], f⟩]) ++ [⟨ktB, vtB, [], g⟩])
        (Callable.cached hp0.length) fb k =
        (f k, ((hp0 ++ [(⟨ktA, vtA, [], f⟩ : GoCache)]) ++
          [(⟨ktB, vtB, [], g⟩ : GoCache)]).set hp0.length
          (⟨ktA, vtA, [(k, f k)], f⟩ : GoCache), 1) := by
      rw [callCallable_cached_of_get _ _ ktA vtA [] f fb k hgetA]
      rfl
    rw [set_append_left _ _ _ _ hltA, set_concat] at hc1
    have hgetA2 : ((hp0 ++ [⟨ktA, vtA, [(k, f k)], f⟩]) ++
        [(⟨ktB, vtB, [], g⟩ : GoCache)])[hp0.length]? =
        some ⟨ktA, vtA, [(k, f k)], f⟩ := by
      rw [List.getElem?_append_left (by simp)]
      exact List.getElem?_concat_length hp0 _
    have hc2 : callCallable ((hp0 ++ [⟨ktA, vtA, [(k, f k)], f⟩]) ++ [⟨ktB, vtB, [], g⟩])
        (Callable.cached hp0.length) fb k =
        (f k, (hp0 ++ [⟨ktA, vtA, [(k, f k)], f⟩]) ++ [⟨ktB, vtB, [], g⟩], 0) := by
      rw [callCallable_cached_of_get _ _ ktA vtA [(k, f k)] f fb k hgetA2,
          mapGet_cons_self]
    have hgetB2 : ((hp0 ++ [⟨ktA, vtA, [(k, f k)], f⟩]) ++
        [(⟨ktB, vtB, [], g⟩ : GoCache)])[hp0.length + 1]? = some ⟨ktB, vtB, [], g⟩ := by
      rw [show hp0.length + 1 = (hp0 ++ [(⟨ktA, vtA, [(k, f k)], f⟩ : GoCache)]).length by simp]
      exact List.getElem?_concat_length _ _
    exact ⟨hc1, hgetB2, hc2⟩
  · intro fb k
    have hc1 : callCallable ((hp0 ++ [⟨ktA, vtA, [], f⟩]) ++ [⟨ktB, vtB, [], g⟩])
        (Callable.cached (hp0.length + 1)) fb k =
        (g k, ((hp0 ++ [(⟨ktA, vtA, [], f⟩ : GoCache)]) ++
          [(⟨ktB, vtB, [], g⟩ : GoCache)]).set
          (hp0.length + 1) (⟨ktB, vtB, [(k, g k)], g⟩ : GoCache), 1) := by
      rw [callCallable_cached_of_get _ _ ktB vtB [] g fb k hgetB]
      rfl
    rw [show ((hp0 ++ [(⟨ktA, vtA, [], f⟩ : GoCache)]) ++
          [(⟨ktB, vtB, [], g⟩ : GoCache)]).set
          (hp0.length + 1) (⟨ktB, vtB, [(k, g k)], g⟩ : GoCache) =
        (hp0 ++ [(⟨ktA, vtA, [], f⟩ : GoCache)]) ++ [⟨ktB, vtB, [(k, g k)], g⟩] by
      rw [← hlenA]
      exact set_concat _ _ _] at hc1
    have hgetA3 : ((hp0 ++ [⟨ktA, vtA, [], f⟩]) ++
        [(⟨ktB, vtB, [(k, g k)], g⟩ : GoCache)])[hp0.length]? = some ⟨ktA, vtA, [], f⟩ := by
      rw [List.getElem?_append_left hltA]
      exact List.getElem?_concat_length hp0 _
    exact ⟨hc1, hgetA3⟩

/-- Witness for C7: binding identifiers a and b into the empty context,
resolving a returns the first store. -/
theorem withCache_independent_ids_witness :
    FromContext (WithCache (WithCache [] [] "a" Ty.int Ty.int (fun x => x)).1
        (WithCache [] [] "a" Ty.int Ty.int (fun x => x)).2 "b" Ty.int Ty.int
        (fun _ => DynVal.intV 7)).2
      (WithCache (WithCache [] [] "a" Ty.int Ty.int (fun x => x)).1
        (WithCache [] [] "a" Ty.int Ty.int (fun x => x)).2 "b" Ty.int Ty.int
        (fun _ => DynVal.intV 7)).1 "a" Ty.int Ty.int = (some 0, true) :=
  (withCache_independent_ids [] [] "a" "b" Ty.int Ty.int Ty.int Ty.int
    (fun x => x) (fun _ => DynVal.intV 7) (by decide) _ _ _ _ rfl rfl).1

/-! ## Theorems: claim C8 -/

/-- Counterexample to C8 as stated. Extending the context returned by a
bind of identifier a with one more binding — a second bind of the same
identifier a — yields a context on which resolve returns the callable of
the new store (address 1), not of the originally bound store (address
0): a rebinding of the same identifier shadows the original store. -/
theorem fromContext_descendant_rebinding_cex :
    FromContext (WithCache (WithCache [] [] "a" Ty.int Ty.int (fun x => x)).1
        (WithCache [] [] "a" Ty.int Ty.int (fun x => x)).2 "a" Ty.int Ty.int
        (fun _ => DynVal.intV 7)).2
      (WithCache (WithCache [] [] "a" Ty.int Ty.int (fun x => x)).1
        (WithCache [] [] "a" Ty.int Ty.int (fun x => x)).2 "a" Ty.int Ty.int
        (fun _ => DynVal.intV 7)).1 "a" Ty.int Ty.int ≠ (some 0, true) ∧
    FromContext (WithCache (WithCache [] [] "a" Ty.int Ty.int (fun x => x)).1
        (WithCache [] [] "a" Ty.int Ty.int (fun x => x)).2 "a" Ty.int Ty.int
        (fun _ => DynVal.intV 7)).2
      (WithCache (WithCache [] [] "a" Ty.int Ty.int (fun x => x)).1
        (WithCache [] [] "a" Ty.int Ty.int (fun x => x)).2 "a" Ty.int Ty.int
        (fun _ => DynVal.intV 7)).1 "a" Ty.int Ty.int = (some 1, true) := by
  constructor
  · decide
  · decide

/-- C8 amended: descendant retrieval, provided none of the additional
bindings rebinds the original identifier. For every context obtained by
extending the context returned by bind with further frames whose keys
all differ from the bound identifier (and a heap extended by further
allocations), resolve with the original identifier and matching types
still finds the originally bound store, at its unchanged address, with
its loader and data intact. -/
theorem fromContext_descendant_retrieval (c0 : Ctx) (hp0 : Heap) (id : String)
    (kt vt : Ty) (f : DynVal → DynVal) (ext : Ctx) (hpExt : Heap)
    (hext : ∀ p ∈ ext, p.1 ≠ GoKey.funcId id) :
    FromContext ((WithCache c0 hp0 id kt vt f).2 ++ hpExt)
        (ext ++ (WithCache c0 hp0 id kt vt f).1) id kt vt = (some hp0.length, true) ∧
    ((WithCache c0 hp0 id kt vt f).2 ++ hpExt)[hp0.length]? = some ⟨kt, vt, [], f⟩ := by
  have hcv : ctxValue (ext ++ ((GoKey.funcId id, CtxEntry.cacheRef hp0.length) :: c0))
      (GoKey.funcId id) = some (CtxEntry.cacheRef hp0.length) := by
    rw [ctxValue_append_of_not_bound ext _ _ hext, ctxValue_cons_self]
  have hlt : hp0.length < (hp0 ++ [(⟨kt, vt, [], f⟩ : GoCache)]).length := by simp
  have hget : ((hp0 ++ [(⟨kt, vt, [], f⟩ : GoCache)]) ++ hpExt)[hp0.length]? =
      some ⟨kt, vt, [], f⟩ := by
    rw [List.getElem?_append_left hlt]
    exact List.getElem?_concat_length hp0 _
  exact ⟨FromContext_of_assert_some
    (assertCache_eq_some.mpr ⟨⟨kt, vt, [], f⟩, hcv, hget, rfl, rfl⟩), hget⟩

/-- Witness for the amended C8: after binding a into the empty context
and extending with an unrelated binding b, a still resolves to the
original store at address 0. -/
theorem fromContext_descendant_retrieval_witness :
    FromContext ((WithCache [] [] "a" Ty.int Ty.int (fun x => x)).2 ++ [])
        ([(GoKey.funcId "b", CtxEntry.otherVal (DynVal.intV 3))] ++
          (WithCache [] [] "a" Ty.int Ty.int (fun x => x)).1) "a" Ty.int Ty.int =
      (some 0, true) :=
  (fromContext_descendant_retrieval [] [] "a" Ty.int Ty.int (fun x => x)
    [(GoKey.funcId "b", CtxEntry.otherVal (DynVal.intV 3))] []
    (by intro p hp; rw [List.mem_singleton] at hp; subst hp; decide)).1

/-! ## Lemmas: the interleaving semantics -/

theorem stepThread_at_none {σ : Type u} {K : Type v} {V : Type w} [DecidableEq K]
    (loader : K → σ → V × σ) (k : K) (st : MState σ K V) (i : Nat)
    (h : st.threads[i]? = none) : stepThread loader k st i = st := by
  unfold stepThread; rw [h]

theorem stepThread_at_done {σ : Type u} {K : Type v} {V : Type w} [DecidableEq K]
    (loader : K → σ → V × σ) (k : K) (st : MState σ K V) (i : Nat) (v : V)
    (h : st.threads[i]? = some (TPhase.done v)) : stepThread loader k st i = st := by
  unfold stepThread; rw [h]

theorem stepThread_start_hit {σ : Type u} {K : Type v} {V : Type w} [DecidableEq K]
    (loader : K → σ → V × σ) (k : K) (st : MState σ K V) (i : Nat) (v : V)
    (h : st.threads[i]? = some TPhase.start) (hm : mapGet st.data k = some v) :
    stepThread loader k st i = { st with threads := st.threads.set i (TPhase.done v) } := by
  unfold stepThread; rw [h, hm]

theorem stepThread_start_miss {σ : Type u} {K : Type v} {V : Type w} [DecidableEq K]
    (loader : K → σ → V × σ) (k : K) (st : MState σ K V) (i : Nat)
    (h : st.threads[i]? = some TPhase.start) (hm : mapGet st.data k = none) :
    stepThread loader k st i = { st with threads := st.threads.set i TPhase.load } := by
  unfold stepThread; rw [h, hm]

theorem stepThread_at_load {σ : Type u} {K : Type v} {V : Type w} [DecidableEq K]
    (loader : K → σ → V × σ) (k : K) (st : MState σ K V) (i : Nat)
    (h : st.threads[i]? = some TPhase.load) :
    stepThread loader k st i =
      { data := mapSet st.data k (loader k st.lstate).1,
        lstate := (loader k st.lstate).2,
        threads := st.threads.set i (TPhase.done (loader k st.lstate).1),
        calls := st.calls + 1 } := by
  unfold stepThread; rw [h]

theorem stepThread_inv {σ : Type u} {K : Type v} {V : Type w} [DecidableEq K]
    (loader : K → σ → V × σ) (k : K) (st : MState σ K V) (i : Nat)
    (h : (mapGet st.data k).isSome = true ∨
      ∀ t ∈ st.threads, t = TPhase.start ∨ t = TPhase.load) :
    (mapGet (stepThread loader k st i).data k).isSome = true ∨
      ∀ t ∈ (stepThread loader k st i).threads, t = TPhase.start ∨ t = TPhase.load := by
  cases hti : st.threads[i]? with
  | none => rw [stepThread_at_none loader k st i hti]; exact h
  | some t =>
      cases t with
      | done v => rw [stepThread_at_done loader k st i v hti]; exact h
      | start =>
          cases hm : mapGet st.data k with
          | some v =>
              rw [stepThread_start_hit loader k st i v hti hm]
              left
              show (mapGet st.data k).isSome = true
              rw [hm]; rfl
          | none =>
              rw [stepThread_start_miss loader k st i hti hm]
              rcases h with h | h
              · rw [hm] at h; simp at h
              · right
                intro t ht
                rcases List.mem_or_eq_of_mem_set ht with ht2 | ht2
                · exact h t ht2
                · exact Or.inr ht2
      | load =>
          rw [stepThread_at_load loader k st i hti]
          left
          show (mapGet (mapSet st.data k (loader k st.lstate).1) k).isSome = true
          rw [mapGet_mapSet_self]; rfl

theorem stepThread_threads_length {σ : Type u} {K : Type v} {V : Type w} [DecidableEq K]
    (loader : K → σ → V × σ) (k : K) (st : MState σ K V) (i : Nat) :
    (stepThread loader k st i).threads.length = st.threads.length := by
  cases hti : st.threads[i]? with
  | none => rw [stepThread_at_none loader k st i hti]
  | some t =>
      cases t with
      | done v => rw [stepThread_at_done loader k st i v hti]
      | start =>
          cases hm : mapGet st.data k with
          | some v =>
              rw [stepThread_start_hit loader k st i v hti hm]
              exact List.length_set st.threads i _
          | none =>
              rw [stepThread_start_miss loader k st i hti hm]
              exact List.length_set st.threads i _
      | load =>
          rw [stepThread_at_load loader k st i hti]
          exact List.length_set st.threads i _

theorem runSched_inv {σ : Type u} {K : Type v} {V : Type w} [DecidableEq K]
    (loader : K → σ → V × σ) (k : K) :
    ∀ (sched : List Nat) (st : MState σ K V),
      ((mapGet st.data k).isSome = true ∨
        ∀ t ∈ st.threads, t = TPhase.start ∨ t = TPhase.load) →
      ((mapGet (runSched loader k st sched).data k).isSome = true ∨
        ∀ t ∈ (runSched loader k st sched).threads,
          t = TPhase.start ∨ t = TPhase.load) := by
  intro sched
  induction sched with
  | nil => intro st h; exact h
  | cons i rest ih => intro st h; exact ih _ (stepThread_inv loader k st i h)

theorem runSched_threads_length {σ : Type u} {K : Type v} {V : Type w} [DecidableEq K]
    (loader : K → σ → V × σ) (k : K) :
    ∀ (sched : List Nat) (st : MState σ K V),
      (runSched loader k st sched).threads.length = st.threads.length := by
  intro sched
  induction sched with
  | nil => intro st; rfl
  | cons i rest ih =>
      intro st
      rw [show runSched loader k st (i :: rest) =
            runSched loader k (stepThread loader k st i) rest from rfl,
          ih _, stepThread_threads_length]

/-! ## Theorems: claim C9 -/

/-- C9: relaxed behavior under concurrent misses. First, concretely,
with two threads calling get for the same absent key 5 and the schedule
that lets both read-miss before either takes the write lock, the
(impure) loader runs twice, and the last writer's value 101 is what the
map finally holds, both threads having completed. Second, universally:
for any loader, any number N of threads calling get with the same
previously-absent key, and any schedule after which all N calls have
returned, the store holds a single final value for that key, and a
subsequent get of the key returns exactly that value without touching
the store or the loader. -/
theorem cacheLoader_concurrent_relaxed :
    ((runSched seqLoader 5 ⟨[], 0, List.replicate 2 TPhase.start, 0⟩ [0, 1, 0, 1]).calls = 2 ∧
     mapGet (runSched seqLoader 5 ⟨[], 0, List.replicate 2 TPhase.start, 0⟩
       [0, 1, 0, 1]).data 5 = some 101 ∧
     (runSched seqLoader 5 ⟨[], 0, List.replicate 2 TPhase.start, 0⟩ [0, 1, 0, 1]).threads =
       [TPhase.done 100, TPhase.done 101]) ∧
    (∀ (σ : Type u) (K : Type v) (V : Type w) [DecidableEq K]
      (loader : K → σ → V × σ) (k : K) (d0 : List (K × V)) (s0 : σ) (n : Nat)
      (sched : List Nat),
      mapGet d0 k = none → 0 < n →
      (∀ t ∈ (runSched loader k ⟨d0, s0, List.replicate n TPhase.start, 0⟩ sched).threads,
        ∃ v, t = TPhase.done v) →
      ∃ v, mapGet (runSched loader k ⟨d0, s0, List.replicate n TPhase.start, 0⟩
          sched).data k = some v ∧
        cacheLoader
          ⟨(runSched loader k ⟨d0, s0, List.replicate n TPhase.start, 0⟩ sched).data, loader⟩
          k (runSched loader k ⟨d0, s0, List.replicate n TPhase.start, 0⟩ sched).lstate =
        (v, ⟨(runSched loader k ⟨d0, s0, List.replicate n TPhase.start, 0⟩ sched).data, loader⟩,
          (runSched loader k ⟨d0, s0, List.replicate n TPhase.start, 0⟩ sched).lstate)) := by
  constructor
  · exact ⟨by decide, by decide, by decide⟩
  · intro σ K V _ loader k d0 s0 n sched hmk hn hall
    have hinv := runSched_inv loader k sched ⟨d0, s0, List.replicate n TPhase.start, 0⟩
      (Or.inr (by
        intro t ht
        exact Or.inl (List.mem_replicate.mp ht).2))
    have hlen := runSched_threads_length loader k sched
      ⟨d0, s0, List.replicate n TPhase.start, 0⟩
    have hpos : 0 < (runSched loader k ⟨d0, s0, List.replicate n TPhase.start, 0⟩
        sched).threads.length := by
      rw [hlen]
      show 0 < (List.replicate n (TPhase.start : TPhase V)).length
      rw [List.length_replicate]
      exact hn
    obtain ⟨t, ht⟩ := List.exists_mem_of_length_pos hpos
    obtain ⟨v0, hv0⟩ := hall t ht
    have hleft : (mapGet (runSched loader k ⟨d0, s0, List.replicate n TPhase.start, 0⟩
        sched).data k).isSome = true := by
      rcases hinv with h | h
      · exact h
      · rcases h t ht with h2 | h2 <;> rw [hv0] at h2 <;> cases h2
    obtain ⟨v, hv⟩ := Option.isSome_iff_exists.mp hleft
    exact ⟨v, hv, cacheLoader_hit loader _ k v _ hv⟩

/-- Witness for C9: the universal part applied at the concrete two-thread
schedule of the first part, after which both threads are done; the store
holds one value for key 5 and a later call returns it unchanged. -/
theorem cacheLoader_concurrent_relaxed_witness :
    ∃ v, mapGet (runSched seqLoader 5 ⟨[], 0, List.replicate 2 TPhase.start, 0⟩
        [0, 1, 0, 1]).data 5 = some v ∧
      cacheLoader
        ⟨(runSched seqLoader 5 ⟨[], 0, List.replicate 2 TPhase.start, 0⟩ [0, 1, 0, 1]).data,
          seqLoader⟩ 5
        (runSched seqLoader 5 ⟨[], 0, List.replicate 2 TPhase.start, 0⟩ [0, 1, 0, 1]).lstate =
      (v, ⟨(runSched seqLoader 5 ⟨[], 0, List.replicate 2 TPhase.start, 0⟩
          [0, 1, 0, 1]).data, seqLoader⟩,
        (runSched seqLoader 5 ⟨[], 0, List.replicate 2 TPhase.start, 0⟩
          [0, 1, 0, 1]).lstate) :=
  cacheLoader_concurrent_relaxed.2 Nat Int Int seqLoader 5 [] 0 2 [0, 1, 0, 1]
    rfl (by decide)
    (by
      intro t ht
      rw [show (runSched seqLoader 5 ⟨[], 0, List.replicate 2 TPhase.start, 0⟩
          [0, 1, 0, 1]).threads = [TPhase.done 100, TPhase.done 101] from by decide] at ht
      rcases List.mem_cons.mp ht with h | h2
      · exact ⟨100, h⟩
      rcases List.mem_cons.mp h2 with h | h3
      · exact ⟨101, h⟩
      · cases h3)

/-- Witness for C2 at the concrete scenario: in the run with keys
1, 1, 2, key 1 was loaded exactly once. -/
theorem cacheLoader_memoizes_seq_witness :
    (runGets (logLoader (fun (n : Int) (u : Unit) => (toString n, u)))
        [1, 1, 2] [] ((), [])).2.2.2.countP (keyIs 1) =
      if (1 : Int) ∈ [1, 1, 2] then 1 else 0 :=
  (cacheLoader_memoizes_seq.1 Unit Int String
    (fun n u => (toString n, u)) [1, 1, 2] ()).1 1
